import Mathlib

/-!
Miller–Rabin primality test (`src/cpp/miller_rabin.cpp`)

A shallow embedding of the three functions of the file, `mul_mod`, `pow_mod`
and `is_probable_prime`, and theorems about them.

Conventions of the embedding.

* A `u64` value is a natural number below `2 ^ 64`; a `u128` value is a natural
  number below `2 ^ 128`.  Where the C++ arithmetic can wrap, the wrap is written
  out as `% U64` or `% U128`.
* A function returns `Option`: `none` stands for a run of the C++ code that gives
  no result, which is either a remainder by zero or a loop that never exits.
* The two `while` loops are written by recursion on a step budget.  The budget
  passed by the caller is the value that the loop halves, which is never too
  small (proved below).
-/

namespace MillerRabin

/-- Number of values of the type `u64`. -/
def U64 : Nat := 2 ^ 64

/-- Number of values of the type `u128`. -/
def U128 : Nat := 2 ^ 128

/-- The operator `%` of C++ on unsigned operands; no result for a zero divisor. -/
def urem (x y : Nat) : Option Nat :=
  if y = 0 then none else some (x % y)

/-- `mul_mod`: `return (u128)a * b % mod;`, the product taken in 128 bits and the
remainder narrowed to the 64-bit return type. -/
def mul_mod (a b mod : Nat) : Option Nat :=
  (urem ((a * b) % U128) mod).map (fun x => x % U64)

/-- The loop `while (e) { if (e & 1) r = mul_mod(r, a, mod); a = mul_mod(a, a, mod); e >>= 1; }`
of `pow_mod`, followed by `return r`.  The first argument is the step budget. -/
def pow_mod_loop (mod : Nat) : Nat → Nat → Nat → Nat → Option Nat
  | 0, r, _, e => if e = 0 then some r else none
  | fuel + 1, r, a, e =>
    if e = 0 then some r
    else
      (if e &&& 1 ≠ 0 then mul_mod r a mod else some r).bind fun r1 =>
      (mul_mod a a mod).bind fun a1 =>
      pow_mod_loop mod fuel r1 a1 (e >>> 1)

/-- `pow_mod`: `u64 r = 1;` then the loop. -/
def pow_mod (a e mod : Nat) : Option Nat :=
  pow_mod_loop mod e 1 a e

/-- The list that the trial-division loop of `is_probable_prime` runs over. -/
def small_primes : List Nat := [2, 3, 5, 7, 11, 13, 17, 19, 23, 29, 31, 37]

/-- The array `bases` of `is_probable_prime`. -/
def bases : List Nat := [2, 3, 5, 7, 11, 13, 17]

/-- The loop `for (u64 p : {...}) { if (n % p == 0) return n == p; }`.  The result is
`some v` when the loop returns `v`, and `none` when it runs to its end. -/
def trial_division (n : Nat) : List Nat → Option Bool
  | [] => none
  | p :: ps => if n % p = 0 then some (n == p) else trial_division n ps

/-- The loop `while ((d & 1) == 0) { d >>= 1; ++r; }`, giving the final `(d, r)`.
The first argument is the step budget. -/
def decompose_loop : Nat → Nat → Nat → Option (Nat × Nat)
  | 0, _, _ => none
  | fuel + 1, d, r =>
    if d &&& 1 = 0 then decompose_loop fuel (d >>> 1) ((r + 1) % U64)
    else some (d, r)

/-- The loop `for (u64 i = 1; i < r; ++i) { x = mul_mod(x, x, n); if (x == n - 1) return true; }`
of the lambda `check`, followed by `return false`.  The first argument is the number of
iterations left, `r - i`. -/
def check_loop (n : Nat) : Nat → Nat → Option Bool
  | 0, _ => some false
  | k + 1, x =>
    (mul_mod x x n).bind fun x1 =>
    if x1 = n - 1 then some true else check_loop n k x1

/-- The lambda `check` of `is_probable_prime`, with its captures `n`, `d`, `r` as
arguments.  The lambda only exists after the range check, so `n ≥ 2` and `n - 1` does not
wrap. -/
def check (n d r a : Nat) : Option Bool :=
  (urem a n).bind fun am =>
  if am = 0 then some true
  else
    (pow_mod a d n).bind fun x =>
    if x = 1 ∨ x = n - 1 then some true
    else check_loop n (r - 1) x

/-- The loop `for (u64 a : bases) { if (a >= n) continue; if (!check(a)) return false; }`,
followed by `return true`. -/
def bases_loop (n d r : Nat) : List Nat → Option Bool
  | [] => some true
  | a :: rest =>
    if a ≥ n then bases_loop n d r rest
    else
      (check n d r a).bind fun ok =>
      if !ok then some false else bases_loop n d r rest

/-- `is_probable_prime`.  The subtraction `n - 1` is only reached with `n ≥ 2`, where it
does not wrap. -/
def is_probable_prime (n : Nat) : Option Bool :=
  if n < 2 then some false
  else
    match trial_division n small_primes with
    | some v => some v
    | none =>
      (decompose_loop (n - 1) (n - 1) 0).bind fun dr =>
      bases_loop n dr.1 dr.2 bases

/-- The bases on which the base loop of `is_probable_prime` calls `check`, in order: a base
with `a >= n` is passed over, and the loop stops after the first call that does not
return `true`. -/
def bases_checked (n d r : Nat) : List Nat → List Nat
  | [] => []
  | a :: rest =>
    if a ≥ n then bases_checked n d r rest
    else
      match check n d r a with
      | some true => a :: bases_checked n d r rest
      | _ => [a]

/-! ### The same program over unbounded integers

The definitions below repeat the ones above with every `% U64` and `% U128` removed: the
arithmetic of the program carried out over the natural numbers, as the comparison side of
the statement that no computation of the program overflows. -/

/-- `mul_mod` over unbounded integers: `a * b % mod` with no wrap. -/
def mul_mod_unbounded (a b mod : Nat) : Option Nat :=
  urem (a * b) mod

/-- The loop of `pow_mod` over unbounded integers. -/
def pow_mod_loop_unbounded (mod : Nat) : Nat → Nat → Nat → Nat → Option Nat
  | 0, r, _, e => if e = 0 then some r else none
  | fuel + 1, r, a, e =>
    if e = 0 then some r
    else
      (if e &&& 1 ≠ 0 then mul_mod_unbounded r a mod else some r).bind fun r1 =>
      (mul_mod_unbounded a a mod).bind fun a1 =>
      pow_mod_loop_unbounded mod fuel r1 a1 (e >>> 1)

/-- `pow_mod` over unbounded integers. -/
def pow_mod_unbounded (a e mod : Nat) : Option Nat :=
  pow_mod_loop_unbounded mod e 1 a e

/-- The halving loop over unbounded integers: the counter `r` does not wrap. -/
def decompose_loop_unbounded : Nat → Nat → Nat → Option (Nat × Nat)
  | 0, _, _ => none
  | fuel + 1, d, r =>
    if d &&& 1 = 0 then decompose_loop_unbounded fuel (d >>> 1) (r + 1)
    else some (d, r)

/-- The squaring loop of `check` over unbounded integers. -/
def check_loop_unbounded (n : Nat) : Nat → Nat → Option Bool
  | 0, _ => some false
  | k + 1, x =>
    (mul_mod_unbounded x x n).bind fun x1 =>
    if x1 = n - 1 then some true else check_loop_unbounded n k x1

/-- The lambda `check` over unbounded integers. -/
def check_unbounded (n d r a : Nat) : Option Bool :=
  (urem a n).bind fun am =>
  if am = 0 then some true
  else
    (pow_mod_unbounded a d n).bind fun x =>
    if x = 1 ∨ x = n - 1 then some true
    else check_loop_unbounded n (r - 1) x

/-- The base loop over unbounded integers. -/
def bases_loop_unbounded (n d r : Nat) : List Nat → Option Bool
  | [] => some true
  | a :: rest =>
    if a ≥ n then bases_loop_unbounded n d r rest
    else
      (check_unbounded n d r a).bind fun ok =>
      if !ok then some false else bases_loop_unbounded n d r rest

/-- `is_probable_prime` over unbounded integers. -/
def is_probable_prime_unbounded (n : Nat) : Option Bool :=
  if n < 2 then some false
  else
    match trial_division n small_primes with
    | some v => some v
    | none =>
      (decompose_loop_unbounded (n - 1) (n - 1) 0).bind fun dr =>
      bases_loop_unbounded n dr.1 dr.2 bases

/-! ## The remainder and the widening multiplier -/

theorem urem_pos (x : Nat) {y : Nat} (hy : 0 < y) : urem x y = some (x % y) := by
  unfold urem
  rw [if_neg (Nat.pos_iff_ne_zero.mp hy)]

theorem u64_mul_lt_u128 {a b : Nat} (ha : a < U64) (hb : b < U64) : a * b < U128 := by
  have h : U128 = U64 * U64 := by decide
  rw [h]
  exact Nat.mul_lt_mul'' ha hb

theorem mul_mod_eq {a b m : Nat} (ha : a < U64) (hb : b < U64) (hm0 : 0 < m)
    (hm : m < U64) : mul_mod a b m = some (a * b % m) := by
  unfold mul_mod
  rw [Nat.mod_eq_of_lt (u64_mul_lt_u128 ha hb), urem_pos _ hm0, Option.map_some']
  rw [Nat.mod_eq_of_lt (lt_trans (Nat.mod_lt _ hm0) hm)]

theorem mul_mod_one (a b : Nat) : mul_mod a b 1 = some 0 := by
  unfold mul_mod
  rw [urem_pos _ Nat.one_pos, Option.map_some', Nat.mod_one, Nat.zero_mod]

/-! ## The modular exponentiator -/

theorem pow_mod_loop_zero_exp (m fuel r a : Nat) : pow_mod_loop m fuel r a 0 = some r := by
  cases fuel <;> simp [pow_mod_loop]

theorem pow_step_even {r a e m : Nat} (he : e % 2 = 0) :
    r * (a * a % m) ^ (e / 2) % m = r * a ^ e % m := by
  have h2 : a ^ e = (a * a) ^ (e / 2) := by
    rw [← sq, ← pow_mul]
    congr 1
    omega
  rw [h2]
  exact ((Nat.mod_modEq (a * a) m).pow (e / 2)).mul_left r

theorem pow_step_odd {r a e m : Nat} (he : e % 2 = 1) :
    (r * a % m) * (a * a % m) ^ (e / 2) % m = r * a ^ e % m := by
  have h2 : r * a ^ e = (r * a) * (a * a) ^ (e / 2) := by
    rw [← sq, ← pow_mul, mul_assoc, ← pow_succ']
    congr 2
    omega
  rw [h2]
  exact (Nat.mod_modEq (r * a) m).mul ((Nat.mod_modEq (a * a) m).pow (e / 2))

/-- The loop of `pow_mod` from any state with enough budget: the result is `r` itself when
the exponent is already zero, and `r * a ^ e % m` otherwise. -/
theorem pow_mod_loop_eq {m : Nat} (hm0 : 0 < m) (hm : m < U64) :
    ∀ (fuel r a e : Nat), e ≤ fuel → r < U64 → a < U64 →
      pow_mod_loop m fuel r a e = some (if e = 0 then r else r * a ^ e % m) := by
  intro fuel
  induction fuel with
  | zero =>
    intro r a e he _ _
    have : e = 0 := by omega
    subst this
    simp [pow_mod_loop]
  | succ fuel ih =>
    intro r a e he hr ha
    by_cases he0 : e = 0
    · subst he0
      simp [pow_mod_loop]
    · have hlt : ∀ x : Nat, x % m < U64 := fun x => lt_trans (Nat.mod_lt _ hm0) hm
      have hshift : e >>> 1 = e / 2 := by rw [Nat.shiftRight_eq_div_pow, pow_one]
      have hand : e &&& 1 = e % 2 := Nat.and_one_is_mod e
      rw [pow_mod_loop, if_neg he0, hshift, hand, mul_mod_eq ha ha hm0 hm, if_neg he0]
      by_cases hodd : e % 2 = 1
      · rw [if_pos (by omega), mul_mod_eq hr ha hm0 hm]
        simp only [Option.some_bind]
        rw [ih _ _ _ (by omega) (hlt _) (hlt _)]
        by_cases h1 : e / 2 = 0
        · have e1 : e = 1 := by omega
          subst e1
          simp [pow_mod_loop_zero_exp]
        · rw [if_neg h1, pow_step_odd hodd]
      · have heven : e % 2 = 0 := by omega
        rw [if_neg (by omega)]
        simp only [Option.some_bind]
        rw [ih _ _ _ (by omega) hr (hlt _)]
        have h1 : e / 2 ≠ 0 := by omega
        rw [if_neg h1, pow_step_even heven]

theorem pow_mod_eq {a e m : Nat} (ha : a < U64) (hm0 : 0 < m) (hm : m < U64) :
    pow_mod a e m = some (if e = 0 then 1 else a ^ e % m) := by
  unfold pow_mod
  rw [pow_mod_loop_eq hm0 hm e 1 a e le_rfl (by decide) ha, one_mul]

theorem pow_mod_eq_of_one_lt {a e m : Nat} (ha : a < U64) (hm1 : 1 < m) (hm : m < U64) :
    pow_mod a e m = some (a ^ e % m) := by
  rw [pow_mod_eq ha (by omega) hm]
  by_cases he : e = 0
  · subst he
    simp [Nat.mod_eq_of_lt hm1]
  · rw [if_neg he]

/-! ## Trial division -/

/-- The trial-division loop runs to its end exactly when no member of the list divides `n`. -/
theorem trial_division_eq_none {n : Nat} (l : List Nat) :
    trial_division n l = none ↔ ∀ p ∈ l, n % p ≠ 0 := by
  induction l with
  | nil => simp [trial_division]
  | cons q qs ih =>
    by_cases h : n % q = 0
    · simp [trial_division, h]
    · simp [trial_division, h, ih]

/-- A verdict of the trial-division loop comes from a member of the list that divides `n`. -/
theorem trial_division_eq_some {n : Nat} {v : Bool} (l : List Nat)
    (h : trial_division n l = some v) : ∃ p ∈ l, n % p = 0 ∧ v = decide (n = p) := by
  induction l with
  | nil => simp [trial_division] at h
  | cons q qs ih =>
    by_cases hq : n % q = 0
    · refine ⟨q, List.mem_cons_self _ _, hq, ?_⟩
      simpa [trial_division, hq, eq_comm] using h
    · rw [trial_division, if_neg hq] at h
      obtain ⟨p, hp, h1, h2⟩ := ih h
      exact ⟨p, List.mem_cons_of_mem _ hp, h1, h2⟩

/-- No member of the small-prime list divides another one. -/
theorem small_primes_no_dvd :
    ∀ p ∈ small_primes, ∀ q ∈ small_primes, q % p = 0 → q = p := by
  decide

/-- When a member of the small-prime list divides `n`, the trial-division loop returns, and
its verdict says whether `n` is that member. -/
theorem trial_division_of_dvd {n p : Nat} (hp : p ∈ small_primes) (hdvd : n % p = 0) :
    trial_division n small_primes = some (decide (n = p)) := by
  cases hv : trial_division n small_primes with
  | none => exact absurd hdvd ((trial_division_eq_none small_primes).mp hv p hp)
  | some v =>
    obtain ⟨q, hq, hqd, rfl⟩ := trial_division_eq_some small_primes hv
    congr 1
    rw [decide_eq_decide]
    constructor
    · intro h
      subst h
      exact small_primes_no_dvd p hp n hq hdvd
    · intro h
      subst h
      exact small_primes_no_dvd q hq n hp hqd

theorem small_primes_pos {p : Nat} (hp : p ∈ small_primes) : 2 ≤ p ∧ p ≤ 37 := by
  simp only [small_primes, List.mem_cons, List.mem_singleton, List.mem_nil_iff, or_false] at hp
  omega

/-- What `is_probable_prime` returns once a member of the small-prime list divides `n`. -/
theorem is_probable_prime_of_dvd {n p : Nat} (hn : 2 ≤ n) (hp : p ∈ small_primes)
    (hdvd : n % p = 0) : is_probable_prime n = some (decide (n = p)) := by
  unfold is_probable_prime
  rw [if_neg (by omega), trial_division_of_dvd hp hdvd]

/-! ## Decomposition of `n - 1` -/

/-- The halving loop from a positive `d` with enough budget: it exits after some `k` steps
with an odd `d'` such that `d' * 2 ^ k` is the `d` it started from, and `r` advanced by `k`. -/
theorem decompose_loop_eq :
    ∀ (fuel d r : Nat), 0 < d → d ≤ fuel → d * 2 ^ r < U64 →
      ∃ d' k, decompose_loop fuel d r = some (d', r + k) ∧ d' % 2 = 1 ∧ d' * 2 ^ k = d := by
  intro fuel
  induction fuel with
  | zero =>
    intro d r hd hf _
    omega
  | succ fuel ih =>
    intro d r hd hf hr
    have hand : d &&& 1 = d % 2 := Nat.and_one_is_mod d
    have hshift : d >>> 1 = d / 2 := by rw [Nat.shiftRight_eq_div_pow, pow_one]
    rw [decompose_loop, hand, hshift]
    by_cases hodd : d % 2 = 0
    · have hpow : d / 2 * 2 ^ (r + 1) = d * 2 ^ r := by
        rw [pow_succ, ← mul_assoc, mul_right_comm, Nat.div_mul_cancel (Nat.dvd_of_mod_eq_zero hodd)]
      have hr1 : r + 1 < U64 := by
        have h1 : 2 ^ r < U64 := lt_of_le_of_lt (Nat.le_mul_of_pos_left _ hd) hr
        have h2 : r < 64 := (Nat.pow_lt_pow_iff_right (by decide : 1 < 2)).mp h1
        have h3 : (65 : Nat) ≤ U64 := by decide
        omega
      rw [if_pos hodd, Nat.mod_eq_of_lt hr1]
      obtain ⟨d', k, h1, h2, h3⟩ := ih (d / 2) (r + 1) (by omega) (by omega) (by rw [hpow]; exact hr)
      refine ⟨d', k + 1, ?_, h2, ?_⟩
      · rw [h1]
        congr 2
        omega
      · rw [pow_succ, ← mul_assoc, h3]
        omega
    · rw [if_neg hodd]
      exact ⟨d, 0, rfl, by omega, by simp⟩

/-- The decomposition that `is_probable_prime` computes for `n ≥ 2` below `2 ^ 64`. -/
theorem decompose_eq {n : Nat} (hn : 2 ≤ n) (hn64 : n < U64) :
    ∃ d r, decompose_loop (n - 1) (n - 1) 0 = some (d, r) ∧ d % 2 = 1 ∧ d * 2 ^ r = n - 1 := by
  obtain ⟨d, k, h1, h2, h3⟩ :=
    decompose_loop_eq (n - 1) (n - 1) 0 (by omega) le_rfl (by rw [pow_zero]; omega)
  rw [Nat.zero_add] at h1
  exact ⟨d, k, h1, h2, h3⟩

/-! ## The squaring loop of `check` -/

/-- The squaring loop returns `true` when one of the `k` squarings reaches `n - 1`. -/
theorem check_loop_true {n : Nat} (hn0 : 0 < n) (hn64 : n < U64) :
    ∀ (k x : Nat), x < U64 → (∃ j, 1 ≤ j ∧ j ≤ k ∧ x ^ 2 ^ j % n = n - 1) →
      check_loop n k x = some true := by
  intro k
  induction k with
  | zero =>
    rintro x _ ⟨j, h1, h2, _⟩
    omega
  | succ k ih =>
    rintro x hx ⟨j, h1, h2, h3⟩
    rw [check_loop, mul_mod_eq hx hx hn0 hn64, Option.some_bind]
    by_cases hx1 : x * x % n = n - 1
    · rw [if_pos hx1]
    · rw [if_neg hx1]
      apply ih _ (lt_trans (Nat.mod_lt _ hn0) hn64)
      have hj : j ≠ 1 := by
        rintro rfl
        rw [pow_one, sq] at h3
        exact hx1 h3
      refine ⟨j - 1, by omega, by omega, ?_⟩
      rw [← h3, ← Nat.pow_mod, ← sq, ← pow_mul, ← pow_succ']
      congr 3
      omega

/-! ## Primes are strong probable primes -/

/-- Modulo a prime, a residue whose square is one is `1` or `n - 1`. -/
theorem sq_mod_prime {n z : Nat} (hp : n.Prime) (hz : z < n) (h : z * z % n = 1) :
    z = 1 ∨ z = n - 1 := by
  have hn : 2 ≤ n := hp.two_le
  have hz0 : 0 < z := by
    rcases Nat.eq_zero_or_pos z with h0 | h0
    · subst h0
      simp at h
    · exact h0
  have hdvd : n ∣ (z - 1) * (z + 1) := by
    have h1 : 1 % n = 1 := Nat.mod_eq_of_lt (by omega)
    have hmod : 1 ≡ z * z [MOD n] := by
      unfold Nat.ModEq
      rw [h, h1]
    have h2 := (Nat.modEq_iff_dvd' (Nat.mul_pos hz0 hz0)).mp hmod
    have h3 : (z - 1) * (z + 1) = z * z - 1 := by
      obtain ⟨w, rfl⟩ : ∃ w, z = w + 1 := ⟨z - 1, by omega⟩
      simp only [Nat.add_sub_cancel]
      ring_nf
      omega
    rw [h3]
    exact h2
  rcases (Nat.Prime.dvd_mul hp).mp hdvd with h1 | h1
  · left
    have := Nat.eq_zero_of_dvd_of_lt h1 (by omega)
    omega
  · right
    have := Nat.le_of_dvd (by omega) h1
    omega

/-- Modulo a prime, a number whose `2 ^ r`-th power is one is itself one, or one of its
first `r` iterated squares is `n - 1`. -/
theorem pow_two_pow_mod_prime {n : Nat} (hp : n.Prime) :
    ∀ (r y : Nat), y ^ 2 ^ r % n = 1 → y % n = 1 ∨ ∃ i, i < r ∧ y ^ 2 ^ i % n = n - 1 := by
  intro r
  induction r with
  | zero =>
    intro y h
    left
    simpa using h
  | succ r ih =>
    intro y h
    have hsq : (y ^ 2 ^ r % n) * (y ^ 2 ^ r % n) % n = 1 := by
      rw [← Nat.mul_mod, ← sq, ← pow_mul, ← pow_succ]
      exact h
    rcases sq_mod_prime hp (Nat.mod_lt _ hp.pos) hsq with h1 | h1
    · rcases ih y h1 with h2 | ⟨i, hi, h2⟩
      · exact Or.inl h2
      · exact Or.inr ⟨i, by omega, h2⟩
    · exact Or.inr ⟨r, by omega, h1⟩

/-- A prime `n` is a strong probable prime to every base that it does not divide. -/
theorem strong_probable_prime_of_prime {n a d r : Nat} (hp : n.Prime) (ha : ¬ n ∣ a)
    (hdr : d * 2 ^ r = n - 1) :
    a ^ d % n = 1 ∨ ∃ i, i < r ∧ a ^ (d * 2 ^ i) % n = n - 1 := by
  have hcop : Nat.Coprime a n := ((Nat.Prime.coprime_iff_not_dvd hp).mpr ha).symm
  have hfermat : (a ^ d) ^ 2 ^ r % n = 1 := by
    have h1 := Nat.ModEq.pow_totient hcop
    rw [Nat.totient_prime hp, ← hdr, pow_mul] at h1
    unfold Nat.ModEq at h1
    rw [h1, Nat.mod_eq_of_lt hp.one_lt]
  rcases pow_two_pow_mod_prime hp r (a ^ d) hfermat with h | ⟨i, hi, h⟩
  · exact Or.inl h
  · exact Or.inr ⟨i, hi, by rw [pow_mul]; exact h⟩

/-! ## The witness loop on a prime -/

/-- One check of a prime `n` against a base below it passes. -/
theorem check_prime {n d r a : Nat} (hp : n.Prime) (hn64 : n < U64) (hdr : d * 2 ^ r = n - 1)
    (han : a < n) : check n d r a = some true := by
  have hn : 2 ≤ n := hp.two_le
  unfold check
  rw [urem_pos _ hp.pos, Option.some_bind]
  by_cases ha0 : a % n = 0
  · rw [if_pos ha0]
  · rw [if_neg ha0, pow_mod_eq_of_one_lt (lt_trans han hn64) hp.one_lt hn64, Option.some_bind]
    by_cases hx : a ^ d % n = 1 ∨ a ^ d % n = n - 1
    · rw [if_pos hx]
    · rw [if_neg hx]
      have hndvd : ¬ n ∣ a := fun h => ha0 (Nat.mod_eq_zero_of_dvd h)
      rcases strong_probable_prime_of_prime hp hndvd hdr with h | ⟨i, hi, h⟩
      · exact absurd (Or.inl h) hx
      · have hi0 : i ≠ 0 := by
          rintro rfl
          rw [pow_zero, mul_one] at h
          exact hx (Or.inr h)
        apply check_loop_true hp.pos hn64 _ _ (lt_trans (Nat.mod_lt _ hp.pos) hn64)
        refine ⟨i, by omega, by omega, ?_⟩
        rw [← Nat.pow_mod, ← pow_mul]
        exact h

/-- The base loop returns `true` when every base below `n` passes its check. -/
theorem bases_loop_true {n d r : Nat} :
    ∀ (l : List Nat), (∀ a ∈ l, a < n → check n d r a = some true) →
      bases_loop n d r l = some true := by
  intro l
  induction l with
  | nil =>
    intro _
    rfl
  | cons a rest ih =>
    intro h
    have hrest := ih (fun b hb => h b (List.mem_cons_of_mem _ hb))
    rw [bases_loop]
    by_cases han : a ≥ n
    · rw [if_pos han]
      exact hrest
    · rw [if_neg han, h a (List.mem_cons_self _ _) (by omega), Option.some_bind]
      simpa using hrest

/-- Every prime below `2 ^ 64` is accepted. -/
theorem is_probable_prime_of_prime {n : Nat} (hp : n.Prime) (hn64 : n < U64) :
    is_probable_prime n = some true := by
  have hn : 2 ≤ n := hp.two_le
  unfold is_probable_prime
  rw [if_neg (by omega)]
  cases hv : trial_division n small_primes with
  | some v =>
    obtain ⟨p, hpm, hdvd, rfl⟩ := trial_division_eq_some small_primes hv
    have hp2 := (small_primes_pos hpm).1
    have hpn : p = n := by
      rcases (Nat.dvd_prime hp).mp (Nat.dvd_of_mod_eq_zero hdvd) with h | h
      · omega
      · exact h
    simp [hpn]
  | none =>
    obtain ⟨d, r, h1, _, h3⟩ := decompose_eq hn hn64
    simp only [h1, Option.some_bind]
    exact bases_loop_true bases (fun a _ han => check_prime hp hn64 h3 han)

/-! ## `pow_mod` with modulus one -/

theorem pow_mod_one_of_pos (a : Nat) {e : Nat} (he : 0 < e) : pow_mod a e 1 = some 0 := by
  obtain ⟨f, rfl⟩ : ∃ f, e = f + 1 := ⟨e - 1, by omega⟩
  have hshift : (f + 1) >>> 1 = (f + 1) / 2 := by rw [Nat.shiftRight_eq_div_pow, pow_one]
  have hand : (f + 1) &&& 1 = (f + 1) % 2 := Nat.and_one_is_mod (f + 1)
  have h64 : (1 : Nat) < U64 := by decide
  unfold pow_mod
  rw [pow_mod_loop, if_neg (by omega), mul_mod_one, mul_mod_one, hshift, hand]
  by_cases hodd : (f + 1) % 2 = 1
  · rw [if_pos (by omega)]
    simp only [Option.some_bind]
    rw [pow_mod_loop_eq Nat.one_pos h64 f 0 0 _ (by omega) (by omega) (by omega)]
    simp [Nat.mod_one]
  · rw [if_neg (by omega)]
    simp only [Option.some_bind]
    rw [pow_mod_loop_eq Nat.one_pos h64 f 1 0 _ (by omega) h64 (by omega)]
    rw [if_neg (by omega), Nat.mod_one]

/-! ## The claims -/

/-- C1 (evaluation of the code at the failing input): `341550071728321`, which is below
`2 ^ 64` and is the product `10670053 * 32010157`, hence not prime, is accepted by
`is_probable_prime`: it is divisible by none of the twelve small primes and is a strong
probable prime to each of the seven bases. -/
theorem composite_accepted :
    is_probable_prime 341550071728321 = some true ∧
      341550071728321 = 10670053 * 32010157 ∧
      341550071728321 < U64 ∧ ¬ Nat.Prime 341550071728321 := by
  refine ⟨by decide!, by decide, by decide, ?_⟩
  exact Nat.not_prime_mul' (by decide : 10670053 * 32010157 = 341550071728321)
    (by decide) (by decide)

/-- C2: for every prime `n < 2 ^ 64`, `is_probable_prime n` returns `true`. -/
theorem prime_accepted (n : Nat) (hp : n.Prime) (hn64 : n < U64) :
    is_probable_prime n = some true :=
  is_probable_prime_of_prime hp hn64

theorem prime_accepted_witness :
    Nat.Prime 6700417 ∧ 6700417 < U64 ∧ is_probable_prime 6700417 = some true :=
  ⟨by norm_num, by decide, prime_accepted 6700417 (by norm_num) (by decide)⟩

/-- C3: for all `a`, `b`, `m` below `2 ^ 64` with `m > 0`, `mul_mod a b m` returns
`(a * b) mod m`, the product and the remainder taken over the natural numbers. -/
theorem mul_mod_correct (a b m : Nat) (ha : a < U64) (hb : b < U64) (hm : m < U64)
    (hm0 : 0 < m) : mul_mod a b m = some (a * b % m) :=
  mul_mod_eq ha hb hm0 hm

theorem mul_mod_correct_witness :
    mul_mod 18446744073709551615 18446744073709551614 18446744073709551557
      = some (18446744073709551615 * 18446744073709551614 % 18446744073709551557) :=
  mul_mod_correct 18446744073709551615 18446744073709551614 18446744073709551557
    (by decide) (by decide) (by decide) (by decide)

/-- C4 (counterexample): with exponent `0` and modulus `1` the loop of `pow_mod` is not
entered and the initial `r = 1` is returned, whereas `2 ^ 0 mod 1` is `0`. -/
theorem pow_mod_contract_fails :
    2 < U64 ∧ 0 < U64 ∧ 1 < U64 ∧ 0 < 1 ∧
      pow_mod 2 0 1 = some 1 ∧ 2 ^ 0 % 1 = 0 ∧ pow_mod 2 0 1 ≠ some (2 ^ 0 % 1) := by
  decide

/-- C4 (amended): for all `a`, `e`, `m` below `2 ^ 64` with `m > 0`, and with `e ≠ 0` or
`m ≠ 1`, `pow_mod a e m` returns `a ^ e mod m` taken over the natural numbers. -/
theorem pow_mod_correct (a e m : Nat) (ha : a < U64) (_he : e < U64) (hm : m < U64)
    (hm0 : 0 < m) (hem : e ≠ 0 ∨ m ≠ 1) : pow_mod a e m = some (a ^ e % m) := by
  rw [pow_mod_eq ha hm0 hm]
  by_cases he0 : e = 0
  · subst he0
    have hm1 : 1 < m := by omega
    simp [Nat.mod_eq_of_lt hm1]
  · rw [if_neg he0]

theorem pow_mod_correct_witness :
    pow_mod 3 18446744073709551556 18446744073709551557
      = some (3 ^ 18446744073709551556 % 18446744073709551557) :=
  pow_mod_correct 3 18446744073709551556 18446744073709551557
    (by decide) (by decide) (by decide) (by decide) (Or.inl (by decide))

/-- C5: for every `n < 2`, `is_probable_prime n` returns `false`. -/
theorem lt_two_rejected (n : Nat) (hn : n < 2) : is_probable_prime n = some false := by
  unfold is_probable_prime
  rw [if_pos hn]

theorem lt_two_rejected_witness :
    is_probable_prime 0 = some false ∧ is_probable_prime 1 = some false :=
  ⟨lt_two_rejected 0 (by decide), lt_two_rejected 1 (by decide)⟩

/-- C6: for every `n` with `2 ≤ n < 2 ^ 64` and every `p` of the small-prime list with
`n mod p = 0`, `is_probable_prime n` returns, and it returns `true` if and only if `n = p`. -/
theorem small_prime_divisor_verdict (n p : Nat) (hn : 2 ≤ n) (_hn64 : n < U64)
    (hp : p ∈ small_primes) (hdvd : n % p = 0) :
    ∃ v, is_probable_prime n = some v ∧ (v = true ↔ n = p) :=
  ⟨decide (n = p), is_probable_prime_of_dvd hn hp hdvd, decide_eq_true_iff⟩

theorem small_prime_divisor_verdict_witness :
    ∃ v, is_probable_prime 1369 = some v ∧ (v = true ↔ 1369 = 37) :=
  small_prime_divisor_verdict 1369 37 (by decide) (by decide) (by decide) (by decide)

/-- C7: every `p` of the small-prime list is accepted, and every multiple `p * k` with
`k ≥ 2` and `p * k < 2 ^ 64` is rejected. -/
theorem small_primes_and_multiples (p k : Nat) (hp : p ∈ small_primes) :
    is_probable_prime p = some true ∧
      (2 ≤ k → p * k < U64 → is_probable_prime (p * k) = some false) := by
  have hp2 := (small_primes_pos hp).1
  constructor
  · rw [is_probable_prime_of_dvd hp2 hp (Nat.mod_self p)]
    simp
  · intro hk _
    have hlt : p < p * k := by
      have h2 : p * 2 ≤ p * k := Nat.mul_le_mul_left p hk
      omega
    rw [is_probable_prime_of_dvd (by omega) hp (Nat.mul_mod_right p k)]
    simp
    omega

theorem small_primes_and_multiples_witness :
    is_probable_prime 37 = some true ∧
      is_probable_prime (37 * 498560650640798692) = some false :=
  ⟨(small_primes_and_multiples 37 498560650640798692 (by decide)).1,
    (small_primes_and_multiples 37 498560650640798692 (by decide)).2 (by decide) (by decide)⟩

/-- C8: the Carmichael numbers `561` and `1105` are rejected. -/
theorem carmichael_rejected :
    is_probable_prime 561 = some false ∧ is_probable_prime 1105 = some false := by
  decide

/-- C9: the large-prime test vectors `6700417`, `2 ^ 61 - 1` and `18446744073709551557`
are accepted. -/
theorem large_primes_accepted :
    is_probable_prime 6700417 = some true ∧
      is_probable_prime (2 ^ 61 - 1) = some true ∧
      is_probable_prime 18446744073709551557 = some true := by
  decide!

/-- C10 (counterexample): with exponent `0` and modulus `1`, `pow_mod` returns `1`, not `0`. -/
theorem pow_mod_zero_exp_not_zero : pow_mod 5 0 1 = some 1 ∧ pow_mod 5 0 1 ≠ some 0 := by
  decide

/-- C10 (amended): for every base `a` and every exponent `e ≥ 1`, `pow_mod a e 1`
returns `0`. -/
theorem pow_mod_modulus_one (a e : Nat) (he : 1 ≤ e) : pow_mod a e 1 = some 0 :=
  pow_mod_one_of_pos a he

theorem pow_mod_modulus_one_witness :
    pow_mod 18446744073709551615 1 1 = some 0 ∧ pow_mod 7 18446744073709551615 1 = some 0 :=
  ⟨pow_mod_modulus_one 18446744073709551615 1 (by decide),
    pow_mod_modulus_one 7 18446744073709551615 (by decide)⟩

/-! ## The squaring loop and `check`, characterised -/

theorem sq_mod_pow (x n j : Nat) : (x * x % n) ^ 2 ^ j % n = x ^ 2 ^ (j + 1) % n := by
  rw [← Nat.pow_mod, ← sq, ← pow_mul, ← pow_succ']

/-- The squaring loop always returns, and it returns `true` exactly when one of the `k`
squarings reaches `n - 1`. -/
theorem check_loop_spec {n : Nat} (hn0 : 0 < n) (hn64 : n < U64) :
    ∀ (k x : Nat), x < U64 →
      ∃ b, check_loop n k x = some b ∧
        (b = true ↔ ∃ j, 1 ≤ j ∧ j ≤ k ∧ x ^ 2 ^ j % n = n - 1) := by
  intro k
  induction k with
  | zero =>
    intro x _
    refine ⟨false, rfl, ?_⟩
    constructor
    · intro h
      exact absurd h (by decide)
    · rintro ⟨j, h1, h2, _⟩
      omega
  | succ k ih =>
    intro x hx
    rw [check_loop, mul_mod_eq hx hx hn0 hn64, Option.some_bind]
    by_cases hx1 : x * x % n = n - 1
    · rw [if_pos hx1]
      refine ⟨true, rfl, ?_⟩
      constructor
      · intro _
        exact ⟨1, le_rfl, by omega, by rw [pow_one, sq]; exact hx1⟩
      · intro _
        rfl
    · rw [if_neg hx1]
      obtain ⟨b, hb, hiff⟩ := ih (x * x % n) (lt_trans (Nat.mod_lt _ hn0) hn64)
      refine ⟨b, hb, hiff.trans ?_⟩
      constructor
      · rintro ⟨j, h1, h2, h3⟩
        exact ⟨j + 1, by omega, by omega, by rw [← sq_mod_pow]; exact h3⟩
      · rintro ⟨j, h1, h2, h3⟩
        have hj : j ≠ 1 := by
          rintro rfl
          rw [pow_one, sq] at h3
          exact hx1 h3
        obtain ⟨i, rfl⟩ : ∃ i, j = i + 1 := ⟨j - 1, by omega⟩
        exact ⟨i, by omega, by omega, by rw [sq_mod_pow]; exact h3⟩

/-- With a non-zero modulus below `2 ^ 64`, one check of a base below `2 ^ 64` returns. -/
theorem check_some {n : Nat} (hn0 : 0 < n) (hn64 : n < U64) (d r : Nat) {a : Nat}
    (ha : a < U64) : ∃ b, check n d r a = some b := by
  unfold check
  rw [urem_pos _ hn0, Option.some_bind]
  by_cases ha0 : a % n = 0
  · rw [if_pos ha0]
    exact ⟨true, rfl⟩
  · have hpow : ∃ x, pow_mod a d n = some x ∧ x < U64 := by
      refine ⟨_, pow_mod_eq ha hn0 hn64, ?_⟩
      split_ifs
      · decide
      · exact lt_trans (Nat.mod_lt _ hn0) hn64
    obtain ⟨x, hx, hx64⟩ := hpow
    rw [if_neg ha0, hx, Option.some_bind]
    by_cases h : x = 1 ∨ x = n - 1
    · rw [if_pos h]
      exact ⟨true, rfl⟩
    · rw [if_neg h]
      obtain ⟨b, hb, _⟩ := check_loop_spec hn0 hn64 (r - 1) x hx64
      exact ⟨b, hb⟩

/-- One check of a base `0 < a < n`, for `r ≥ 1`: it returns, and it returns `true` exactly
when `n` is a strong probable prime to the base `a` for the pair `(d, r)`. -/
theorem check_spec {n d r a : Nat} (hn : 2 ≤ n) (hn64 : n < U64) (hr : 1 ≤ r)
    (ha0 : 0 < a) (han : a < n) :
    ∃ b, check n d r a = some b ∧
      (b = true ↔ a ^ d % n = 1 ∨ ∃ i, i < r ∧ a ^ (d * 2 ^ i) % n = n - 1) := by
  unfold check
  rw [urem_pos _ (by omega), Option.some_bind, Nat.mod_eq_of_lt han, if_neg (by omega),
    pow_mod_eq_of_one_lt (lt_trans han hn64) (by omega) hn64, Option.some_bind]
  by_cases hx : a ^ d % n = 1 ∨ a ^ d % n = n - 1
  · rw [if_pos hx]
    refine ⟨true, rfl, ?_⟩
    constructor
    · intro _
      rcases hx with h | h
      · exact Or.inl h
      · exact Or.inr ⟨0, by omega, by rw [pow_zero, mul_one]; exact h⟩
    · intro _
      rfl
  · rw [if_neg hx]
    obtain ⟨b, hb, hiff⟩ := check_loop_spec (by omega : 0 < n) hn64 (r - 1) (a ^ d % n)
      (lt_trans (Nat.mod_lt _ (by omega)) hn64)
    refine ⟨b, hb, hiff.trans ?_⟩
    constructor
    · rintro ⟨j, h1, h2, h3⟩
      right
      refine ⟨j, by omega, ?_⟩
      rw [pow_mul, Nat.pow_mod]
      exact h3
    · rintro (h | ⟨i, hi, h⟩)
      · exact absurd (Or.inl h) hx
      · have hi0 : i ≠ 0 := by
          rintro rfl
          rw [pow_zero, mul_one] at h
          exact hx (Or.inr h)
        refine ⟨i, by omega, by omega, ?_⟩
        rw [← Nat.pow_mod, ← pow_mul]
        exact h

/-- The base loop returns when every call of `check` it makes returns, and it returns
`true` exactly when each base below `n` passes. -/
theorem bases_loop_spec {n d r : Nat} :
    ∀ (l : List Nat), (∀ a ∈ l, a < n → ∃ b, check n d r a = some b) →
      ∃ b, bases_loop n d r l = some b ∧
        (b = true ↔ ∀ a ∈ l, a < n → check n d r a = some true) := by
  intro l
  induction l with
  | nil =>
    intro _
    exact ⟨true, rfl, by simp⟩
  | cons a rest ih =>
    intro h
    obtain ⟨b, hb, hiff⟩ := ih (fun c hc => h c (List.mem_cons_of_mem _ hc))
    rw [bases_loop]
    by_cases han : a ≥ n
    · rw [if_pos han]
      refine ⟨b, hb, hiff.trans ?_⟩
      constructor
      · intro h1 c hc hcn
        rcases List.mem_cons.mp hc with rfl | hc
        · omega
        · exact h1 c hc hcn
      · intro h1 c hc hcn
        exact h1 c (List.mem_cons_of_mem _ hc) hcn
    · rw [if_neg han]
      obtain ⟨v, hv⟩ := h a (List.mem_cons_self _ _) (by omega)
      rw [hv, Option.some_bind]
      cases v with
      | false =>
        refine ⟨false, by simp, ?_⟩
        constructor
        · intro h1
          exact absurd h1 (by decide)
        · intro h1
          have := h1 a (List.mem_cons_self _ _) (by omega)
          rw [hv] at this
          exact absurd this (by decide)
      | true =>
        refine ⟨b, by simpa using hb, hiff.trans ?_⟩
        constructor
        · intro h1 c hc hcn
          rcases List.mem_cons.mp hc with rfl | hc
          · exact hv
          · exact h1 c hc hcn
        · intro h1 c hc hcn
          exact h1 c (List.mem_cons_of_mem _ hc) hcn

/-! ## Facts about the two constant lists and the decomposition -/

theorem bases_bounds {a : Nat} (ha : a ∈ bases) : 2 ≤ a ∧ a ≤ 17 := by
  simp only [bases, List.mem_cons, List.mem_singleton, List.mem_nil_iff, or_false] at ha
  omega

/-- Every number from `2` to `40` is divisible by a member of the small-prime list. -/
theorem small_factor_below_41 :
    ∀ n, n < 41 → 2 ≤ n → ∃ p ∈ small_primes, n % p = 0 := by
  decide

/-- A number that the trial-division loop lets through is at least `41`. -/
theorem ge_41_of_trial_division_none {n : Nat} (hn : 2 ≤ n)
    (h : trial_division n small_primes = none) : 41 ≤ n := by
  by_contra hlt
  obtain ⟨p, hp, hdvd⟩ := small_factor_below_41 n (by omega) hn
  exact (trial_division_eq_none small_primes).mp h p hp hdvd

/-- The pair `(d, r)` with `d` odd and `d * 2 ^ r` given is unique. -/
theorem odd_part_unique :
    ∀ (k r d' d : Nat), d' % 2 = 1 → d % 2 = 1 → d' * 2 ^ k = d * 2 ^ r → d' = d ∧ k = r := by
  intro k
  induction k with
  | zero =>
    intro r d' d h1 h2 h
    cases r with
    | zero => simpa using h
    | succ r =>
      rw [pow_zero, mul_one, pow_succ, ← mul_assoc] at h
      omega
  | succ k ih =>
    intro r d' d h1 h2 h
    cases r with
    | zero =>
      rw [pow_zero, mul_one, pow_succ, ← mul_assoc] at h
      omega
    | succ r =>
      rw [pow_succ, pow_succ, ← mul_assoc, ← mul_assoc] at h
      have h3 := ih r d' d h1 h2 (Nat.eq_of_mul_eq_mul_right (by decide : 0 < 2) h)
      exact ⟨h3.1, by omega⟩

/-- The decomposition computed for `n` is the pair `(d, r)` with `d` odd and
`d * 2 ^ r = n - 1`, whichever way that pair is given. -/
theorem decompose_of_odd {n d r : Nat} (hn : 2 ≤ n) (hn64 : n < U64) (hd : d % 2 = 1)
    (hdr : d * 2 ^ r = n - 1) : decompose_loop (n - 1) (n - 1) 0 = some (d, r) := by
  obtain ⟨d', r', h1, h2, h3⟩ := decompose_eq hn hn64
  obtain ⟨rfl, rfl⟩ := odd_part_unique r' r d' d h2 hd (h3.trans hdr.symm)
  exact h1

/-- In the decomposition of an even number the exponent is at least one. -/
theorem one_le_exponent {n d r : Nat} (hodd : n % 2 = 1) (hd : d % 2 = 1)
    (hdr : d * 2 ^ r = n - 1) : 1 ≤ r := by
  rcases Nat.eq_zero_or_pos r with h | h
  · subst h
    rw [pow_zero, mul_one] at hdr
    omega
  · exact h

/-! ## From the strong test to the Fermat test -/

theorem pred_sq_mod {n : Nat} (hn : 2 ≤ n) : (n - 1) * (n - 1) % n = 1 := by
  obtain ⟨m, rfl⟩ : ∃ m, n = m + 2 := ⟨n - 2, by omega⟩
  have h : (m + 2 - 1) * (m + 2 - 1) = 1 + (m + 2) * m := by
    simp only [Nat.add_sub_cancel, show m + 2 - 1 = m + 1 by omega]
    ring
  rw [h, Nat.add_mul_mod_self_left, Nat.mod_eq_of_lt (by omega)]

theorem one_pow_mod {n : Nat} (hn : 2 ≤ n) {y : Nat} (hy : y % n = 1) (k : Nat) :
    y ^ k % n = 1 := by
  rw [Nat.pow_mod, hy, one_pow, Nat.mod_eq_of_lt (by omega)]

/-- A strong probable prime to the base `a` passes the Fermat test to the base `a`. -/
theorem fermat_of_strong {n d r a : Nat} (hn : 2 ≤ n) (hdr : d * 2 ^ r = n - 1)
    (h : a ^ d % n = 1 ∨ ∃ i, i < r ∧ a ^ (d * 2 ^ i) % n = n - 1) :
    a ^ (n - 1) % n = 1 := by
  rw [← hdr]
  rcases h with h | ⟨i, hi, h⟩
  · rw [pow_mul]
    exact one_pow_mod hn h _
  · obtain ⟨s, rfl⟩ : ∃ s, r = i + (s + 1) := ⟨r - i - 1, by omega⟩
    rw [pow_add, ← mul_assoc, pow_mul, pow_succ', pow_mul, sq]
    apply one_pow_mod hn
    rw [Nat.mul_mod, h]
    exact pred_sq_mod hn

/-! ## `is_probable_prime` on the path through the witness loop -/

/-- No result is given for a zero modulus, nor by the halving loop started at zero. -/
theorem mul_mod_zero (a b : Nat) : mul_mod a b 0 = none := by
  simp [mul_mod, urem]

theorem decompose_loop_zero : ∀ (fuel r : Nat), decompose_loop fuel 0 r = none := by
  intro fuel
  induction fuel with
  | zero =>
    intro r
    rfl
  | succ fuel ih =>
    intro r
    rw [decompose_loop, if_pos (by decide)]
    exact ih _

/-- `is_probable_prime` returns a boolean for every `n` below `2 ^ 64`. -/
theorem is_probable_prime_some {n : Nat} (hn64 : n < U64) :
    ∃ b, is_probable_prime n = some b := by
  unfold is_probable_prime
  by_cases hn : n < 2
  · rw [if_pos hn]
    exact ⟨false, rfl⟩
  · rw [if_neg hn]
    cases hv : trial_division n small_primes with
    | some v => exact ⟨v, rfl⟩
    | none =>
      obtain ⟨d, r, h1, _, _⟩ := decompose_eq (by omega : 2 ≤ n) hn64
      simp only [h1, Option.some_bind]
      obtain ⟨b, hb, _⟩ := bases_loop_spec (n := n) (d := d) (r := r) bases
        (fun a _ han => check_some (by omega) hn64 d r (lt_trans han hn64))
      exact ⟨b, hb⟩

/-- For `n` that trial division lets through, with `n - 1 = d * 2 ^ r` and `d` odd: the
verdict is `true` exactly when `n` is a strong probable prime to every base. -/
theorem is_probable_prime_witness_path {n d r : Nat} (hn : 2 ≤ n) (hn64 : n < U64)
    (hnone : trial_division n small_primes = none) (hd : d % 2 = 1)
    (hdr : d * 2 ^ r = n - 1) :
    ∃ b, is_probable_prime n = some b ∧
      (b = true ↔
        ∀ a ∈ bases, a ^ d % n = 1 ∨ ∃ i, i < r ∧ a ^ (d * 2 ^ i) % n = n - 1) := by
  have h41 := ge_41_of_trial_division_none hn hnone
  have hodd : n % 2 = 1 := by
    have := (trial_division_eq_none small_primes).mp hnone 2 (by decide)
    omega
  have hr := one_le_exponent hodd hd hdr
  have hcheck : ∀ a ∈ bases, ∃ b, check n d r a = some b ∧
      (b = true ↔ a ^ d % n = 1 ∨ ∃ i, i < r ∧ a ^ (d * 2 ^ i) % n = n - 1) :=
    fun a ha => check_spec hn hn64 hr (by have := bases_bounds ha; omega)
      (by have := bases_bounds ha; omega)
  obtain ⟨b, hb, hiff⟩ := bases_loop_spec (n := n) (d := d) (r := r) bases
    (fun a ha _ => (hcheck a ha).imp fun _ h => h.1)
  refine ⟨b, ?_, hiff.trans ?_⟩
  · unfold is_probable_prime
    rw [if_neg (by omega), hnone]
    simp only [decompose_of_odd hn hn64 hd hdr, Option.some_bind]
    exact hb
  · constructor
    · intro h a ha
      obtain ⟨v, hv, hviff⟩ := hcheck a ha
      have h1 := h a ha (by have := bases_bounds ha; omega)
      rw [hv, Option.some.injEq] at h1
      exact hviff.mp h1
    · intro h a ha _
      obtain ⟨v, hv, hviff⟩ := hcheck a ha
      rw [hv, hviff.mpr (h a ha)]

/-! ## The wrapping program agrees with the unbounded one -/

theorem mul_mod_refines {a b m : Nat} (ha : a < U64) (hb : b < U64) (hm0 : 0 < m)
    (hm : m < U64) : mul_mod a b m = mul_mod_unbounded a b m := by
  rw [mul_mod_eq ha hb hm0 hm, mul_mod_unbounded, urem_pos _ hm0]

theorem pow_mod_loop_refines {m : Nat} (hm0 : 0 < m) (hm : m < U64) :
    ∀ (fuel r a e : Nat), r < U64 → a < U64 →
      pow_mod_loop m fuel r a e = pow_mod_loop_unbounded m fuel r a e := by
  intro fuel
  induction fuel with
  | zero =>
    intro r a e _ _
    rfl
  | succ fuel ih =>
    intro r a e hr ha
    have hlt : ∀ x : Nat, x % m < U64 := fun x => lt_trans (Nat.mod_lt _ hm0) hm
    rw [pow_mod_loop, pow_mod_loop_unbounded, ← mul_mod_refines hr ha hm0 hm,
      ← mul_mod_refines ha ha hm0 hm, mul_mod_eq hr ha hm0 hm, mul_mod_eq ha ha hm0 hm]
    by_cases he0 : e = 0
    · rw [if_pos he0, if_pos he0]
    · rw [if_neg he0, if_neg he0]
      by_cases hodd : e &&& 1 ≠ 0
      · rw [if_pos hodd]
        simp only [Option.some_bind]
        exact ih _ _ _ (hlt _) (hlt _)
      · rw [if_neg hodd]
        simp only [Option.some_bind]
        exact ih _ _ _ hr (hlt _)

theorem pow_mod_refines {a e m : Nat} (ha : a < U64) (hm0 : 0 < m) (hm : m < U64) :
    pow_mod a e m = pow_mod_unbounded a e m :=
  pow_mod_loop_refines hm0 hm e 1 a e (by decide) ha

theorem decompose_loop_refines :
    ∀ (fuel d r : Nat), 0 < d → d * 2 ^ r < U64 →
      decompose_loop fuel d r = decompose_loop_unbounded fuel d r := by
  intro fuel
  induction fuel with
  | zero =>
    intro d r _ _
    rfl
  | succ fuel ih =>
    intro d r hd hr
    have hand : d &&& 1 = d % 2 := Nat.and_one_is_mod d
    have hshift : d >>> 1 = d / 2 := by rw [Nat.shiftRight_eq_div_pow, pow_one]
    rw [decompose_loop, decompose_loop_unbounded, hand, hshift]
    by_cases heven : d % 2 = 0
    · have hpow : d / 2 * 2 ^ (r + 1) = d * 2 ^ r := by
        rw [pow_succ, ← mul_assoc, mul_right_comm,
          Nat.div_mul_cancel (Nat.dvd_of_mod_eq_zero heven)]
      have hr1 : r + 1 < U64 := by
        have h1 : 2 ^ r < U64 := lt_of_le_of_lt (Nat.le_mul_of_pos_left _ hd) hr
        have h2 : r < 64 := (Nat.pow_lt_pow_iff_right (by decide : 1 < 2)).mp h1
        have h3 : (65 : Nat) ≤ U64 := by decide
        omega
      rw [if_pos heven, if_pos heven, Nat.mod_eq_of_lt hr1]
      exact ih _ _ (by omega) (by rw [hpow]; exact hr)
    · rw [if_neg heven, if_neg heven]

theorem check_loop_refines {n : Nat} (hn0 : 0 < n) (hn64 : n < U64) :
    ∀ (k x : Nat), x < U64 → check_loop n k x = check_loop_unbounded n k x := by
  intro k
  induction k with
  | zero =>
    intro x _
    rfl
  | succ k ih =>
    intro x hx
    rw [check_loop, check_loop_unbounded, ← mul_mod_refines hx hx hn0 hn64,
      mul_mod_eq hx hx hn0 hn64]
    simp only [Option.some_bind]
    rw [ih _ (lt_trans (Nat.mod_lt _ hn0) hn64)]

theorem check_refines {n : Nat} (hn0 : 0 < n) (hn64 : n < U64) (d r : Nat) {a : Nat}
    (ha : a < U64) : check n d r a = check_unbounded n d r a := by
  have hpow : ∃ x, pow_mod a d n = some x ∧ x < U64 := by
    refine ⟨_, pow_mod_eq ha hn0 hn64, ?_⟩
    split_ifs
    · decide
    · exact lt_trans (Nat.mod_lt _ hn0) hn64
  obtain ⟨x, hx, hx64⟩ := hpow
  rw [check, check_unbounded, ← pow_mod_refines ha hn0 hn64, hx]
  simp only [Option.some_bind]
  rw [check_loop_refines hn0 hn64 _ _ hx64]

theorem bases_loop_refines {n : Nat} (hn64 : n < U64) (d r : Nat) :
    ∀ (l : List Nat), bases_loop n d r l = bases_loop_unbounded n d r l := by
  intro l
  induction l with
  | nil => rfl
  | cons a rest ih =>
    rw [bases_loop, bases_loop_unbounded, ih]
    by_cases han : a ≥ n
    · rw [if_pos han, if_pos han]
    · rw [if_neg han, if_neg han, check_refines (by omega) hn64 d r (by omega : a < U64)]

/-- On every `n` below `2 ^ 64` the wrapping program and the unbounded one agree. -/
theorem is_probable_prime_refines {n : Nat} (hn64 : n < U64) :
    is_probable_prime n = is_probable_prime_unbounded n := by
  unfold is_probable_prime is_probable_prime_unbounded
  by_cases hn : n < 2
  · rw [if_pos hn, if_pos hn]
  · rw [if_neg hn, if_neg hn,
      decompose_loop_refines (n - 1) (n - 1) 0 (by omega) (by rw [pow_zero]; omega)]
    cases trial_division n small_primes with
    | some v => rfl
    | none =>
      cases decompose_loop_unbounded (n - 1) (n - 1) 0 with
      | none => rfl
      | some dr => exact bases_loop_refines hn64 dr.1 dr.2 bases

/-! ## The bases on which `check` is called -/

theorem bases_checked_initial {n d r : Nat} :
    ∀ (l : List Nat), (∀ a ∈ l, a < n) → bases_checked n d r l <+: l := by
  intro l
  induction l with
  | nil =>
    intro _
    exact List.prefix_refl _
  | cons a rest ih =>
    intro h
    have han : ¬ a ≥ n := by
      have := h a (List.mem_cons_self _ _)
      omega
    rw [bases_checked, if_neg han]
    have hrest := ih (fun c hc => h c (List.mem_cons_of_mem _ hc))
    split
    · exact List.cons_prefix_cons.mpr ⟨rfl, hrest⟩
    · exact List.cons_prefix_cons.mpr ⟨rfl, List.nil_prefix⟩

theorem bases_checked_all {n d r : Nat} :
    ∀ (l : List Nat), (∀ a ∈ l, a < n) → bases_loop n d r l = some true →
      bases_checked n d r l = l := by
  intro l
  induction l with
  | nil =>
    intro _ _
    rfl
  | cons a rest ih =>
    intro h hloop
    have han : ¬ a ≥ n := by
      have := h a (List.mem_cons_self _ _)
      omega
    rw [bases_loop, if_neg han] at hloop
    rw [bases_checked, if_neg han]
    cases hc : check n d r a with
    | none =>
      rw [hc] at hloop
      exact absurd hloop (by simp)
    | some v =>
      rw [hc, Option.some_bind] at hloop
      cases v with
      | false => exact absurd hloop (by simp)
      | true =>
        have hrest := ih (fun c hc => h c (List.mem_cons_of_mem _ hc)) (by simpa using hloop)
        simp only [hrest]

/-! ## The verdict of the base loop when no base is passed over -/

/-- When every base of the list is below `n`, the base loop returns `true` exactly when
`check` returns `true` on every base of the list. -/
theorem bases_loop_true_iff {n d r : Nat} :
    ∀ (l : List Nat), (∀ a ∈ l, a < n) →
      (bases_loop n d r l = some true ↔ ∀ a ∈ l, check n d r a = some true) := by
  intro l
  induction l with
  | nil =>
    intro _
    simp [bases_loop]
  | cons a rest ih =>
    intro h
    have han : ¬ a ≥ n := by
      have := h a (List.mem_cons_self _ _)
      omega
    have hrest := ih (fun c hc => h c (List.mem_cons_of_mem _ hc))
    rw [bases_loop, if_neg han, List.forall_mem_cons]
    cases hc : check n d r a with
    | none => simp
    | some v =>
      cases v with
      | false => simp
      | true => simpa using hrest

/-- When every base of the list is below `n`, the base loop returns `false` at the first
base on which `check` returns `false`, whatever bases come after it. -/
theorem bases_loop_first_failure {n d r a : Nat} (han : a < n)
    (hfail : check n d r a = some false) (rest : List Nat) :
    ∀ (pre : List Nat), (∀ b ∈ pre, b < n) → (∀ b ∈ pre, check n d r b = some true) →
      bases_loop n d r (pre ++ a :: rest) = some false := by
  intro pre
  induction pre with
  | nil =>
    intro _ _
    rw [List.nil_append, bases_loop, if_neg (by omega), hfail]
    rfl
  | cons b pre ih =>
    intro hlt hpass
    have hbn : ¬ b ≥ n := by
      have := hlt b (List.mem_cons_self _ _)
      omega
    rw [List.cons_append, bases_loop, if_neg hbn, hpass b (List.mem_cons_self _ _)]
    simp only [Option.some_bind]
    exact ih (fun c hc => hlt c (List.mem_cons_of_mem _ hc))
      (fun c hc => hpass c (List.mem_cons_of_mem _ hc))

/-! ## Below `41 ^ 2` -/

theorem prime_below_41_mem : ∀ p, p < 41 → p.Prime → p ∈ small_primes := by
  intro p hp hprime
  interval_cases p <;> first | decide | (exfalso; revert hprime; norm_num)

/-- A composite number below `41 ^ 2` is divisible by a member of the small-prime list
other than itself. -/
theorem small_factor_of_composite {n : Nat} (hn : 2 ≤ n) (hlt : n < 1681)
    (hcomp : ¬ n.Prime) : ∃ p ∈ small_primes, n % p = 0 ∧ n ≠ p := by
  have hprime : (Nat.minFac n).Prime := Nat.minFac_prime (by omega)
  have hsq : Nat.minFac n ^ 2 ≤ n := Nat.minFac_sq_le_self (by omega) hcomp
  have hlt41 : Nat.minFac n < 41 := by
    by_contra h
    have h1 : 41 ^ 2 ≤ Nat.minFac n ^ 2 := Nat.pow_le_pow_left (by omega) 2
    omega
  refine ⟨Nat.minFac n, prime_below_41_mem _ hlt41 hprime,
    Nat.mod_eq_zero_of_dvd (Nat.minFac_dvd n), ?_⟩
  intro h
  rw [h] at hcomp
  exact hcomp hprime

/-! ## The claims, continued -/

/-- C11: for every base `a` and every modulus `m > 0`, `pow_mod a 0 m` returns `1`; the
loop with exponent zero returns the current `r` without a multiplication. -/
theorem pow_mod_zero_exponent (a m : Nat) (_hm : 0 < m) :
    pow_mod a 0 m = some 1 ∧ ∀ fuel r, pow_mod_loop m fuel r a 0 = some r :=
  ⟨pow_mod_loop_zero_exp m 0 1 a, fun fuel r => pow_mod_loop_zero_exp m fuel r a⟩

theorem pow_mod_zero_exponent_witness :
    pow_mod 18446744073709551615 0 18446744073709551557 = some 1 :=
  (pow_mod_zero_exponent 18446744073709551615 18446744073709551557 (by decide)).1

/-- C12: `is_probable_prime` is total on `n < 2 ^ 64`: it returns a boolean, so that no
remainder by zero and no endless loop is met on the way (either would give `none`, as a
zero modulus in `mul_mod` and a zero start of the halving loop do); and on the path through
the witness loop the halving loop starts from `n - 1 > 0` and returns, the modulus `n` is
non-zero, and every call of `check` returns. -/
theorem is_probable_prime_total (n : Nat) (hn64 : n < U64) :
    (∃ b, is_probable_prime n = some b) ∧
      (∀ a b, mul_mod a b 0 = none) ∧ (∀ fuel r, decompose_loop fuel 0 r = none) ∧
      (2 ≤ n → trial_division n small_primes = none →
        0 < n - 1 ∧ 0 < n ∧
          ∃ d r, decompose_loop (n - 1) (n - 1) 0 = some (d, r) ∧
            ∀ a ∈ bases, ∃ b, check n d r a = some b) := by
  refine ⟨is_probable_prime_some hn64, mul_mod_zero, decompose_loop_zero, ?_⟩
  intro hn _
  obtain ⟨d, r, h1, _, _⟩ := decompose_eq hn hn64
  refine ⟨by omega, by omega, d, r, h1, ?_⟩
  intro a ha
  have hb := bases_bounds ha
  have h64 : (17 : Nat) < U64 := by decide
  exact check_some (by omega) hn64 d r (by omega)

theorem is_probable_prime_total_witness :
    (∃ b, is_probable_prime 18446744073709551615 = some b) ∧
      (∃ b, is_probable_prime 0 = some b) :=
  ⟨(is_probable_prime_total 18446744073709551615 (by decide)).1,
    (is_probable_prime_total 0 (by decide)).1⟩

/-- C13: for every `n < 2 ^ 64`, `is_probable_prime` with wrapping 64-bit and 128-bit
arithmetic returns what it returns over unbounded integers; and for 64-bit operands the
product in `mul_mod` is below `2 ^ 128`, the remainder is below the modulus, and `mul_mod`
agrees with its unbounded form. -/
theorem no_overflow (n : Nat) (hn64 : n < U64) :
    is_probable_prime n = is_probable_prime_unbounded n ∧
      ∀ a b m, a < U64 → b < U64 → 0 < m → m < U64 →
        a * b < U128 ∧ a * b % m < m ∧ mul_mod a b m = mul_mod_unbounded a b m :=
  ⟨is_probable_prime_refines hn64, fun _ _ _ ha hb hm0 hm =>
    ⟨u64_mul_lt_u128 ha hb, Nat.mod_lt _ hm0, mul_mod_refines ha hb hm0 hm⟩⟩

theorem no_overflow_witness :
    is_probable_prime 18446744073709551615 = is_probable_prime_unbounded 18446744073709551615 ∧
      18446744073709551615 * 18446744073709551615 < U128 ∧
      mul_mod 18446744073709551615 18446744073709551615 18446744073709551615
        = mul_mod_unbounded 18446744073709551615 18446744073709551615 18446744073709551615 :=
  ⟨(no_overflow 18446744073709551615 (by decide)).1,
    ((no_overflow 18446744073709551615 (by decide)).2 18446744073709551615
      18446744073709551615 18446744073709551615
      (by decide) (by decide) (by decide) (by decide)).1,
    ((no_overflow 18446744073709551615 (by decide)).2 18446744073709551615
      18446744073709551615 18446744073709551615
      (by decide) (by decide) (by decide) (by decide)).2.2⟩

/-- C14: for every `n` with `2 ≤ n < 2 ^ 64` divisible by none of the twelve small primes,
with `n - 1 = d * 2 ^ r` and `d` odd, `is_probable_prime n` returns, and it returns `true`
if and only if for every base `a` either `a ^ d mod n = 1` or `a ^ (d * 2 ^ i) mod n = n - 1`
for some `i < r`. -/
theorem strong_probable_prime_iff (n d r : Nat) (hn : 2 ≤ n) (hn64 : n < U64)
    (hnd : ∀ p ∈ small_primes, n % p ≠ 0) (hdr : n - 1 = d * 2 ^ r) (hd : d % 2 = 1) :
    (∃ b, is_probable_prime n = some b) ∧
      (is_probable_prime n = some true ↔
        ∀ a ∈ bases, a ^ d % n = 1 ∨ ∃ i, i < r ∧ a ^ (d * 2 ^ i) % n = n - 1) := by
  obtain ⟨b, hb, hiff⟩ := is_probable_prime_witness_path hn hn64
    ((trial_division_eq_none small_primes).mpr hnd) hd hdr.symm
  refine ⟨⟨b, hb⟩, ?_⟩
  rw [hb, Option.some.injEq]
  exact hiff

theorem strong_probable_prime_iff_witness :
    is_probable_prime 6700417 = some true ↔
      ∀ a ∈ bases, a ^ 52347 % 6700417 = 1 ∨
        ∃ i, i < 7 ∧ a ^ (52347 * 2 ^ i) % 6700417 = 6700417 - 1 :=
  (strong_probable_prime_iff 6700417 52347 7 (by decide) (by decide) (by decide) (by decide)
    (by decide)).2

/-- C15: for every `n` with `2 ≤ n < 2 ^ 64` the decomposition loop started at `d = n - 1`,
`r = 0` returns a pair `(d, r)` with `d` odd and `d * 2 ^ r = n - 1`; and `r ≥ 1` when `n`
is odd. -/
theorem decomposition_correct (n : Nat) (hn : 2 ≤ n) (hn64 : n < U64) :
    ∃ d r, decompose_loop (n - 1) (n - 1) 0 = some (d, r) ∧ d % 2 = 1 ∧ d * 2 ^ r = n - 1 ∧
      (n % 2 = 1 → 1 ≤ r) := by
  obtain ⟨d, r, h1, h2, h3⟩ := decompose_eq hn hn64
  exact ⟨d, r, h1, h2, h3, fun hodd => one_le_exponent hodd h2 h3⟩

theorem decomposition_correct_witness :
    ∃ d r, decompose_loop (18446744073709551615 - 1) (18446744073709551615 - 1) 0 = some (d, r) ∧
      d % 2 = 1 ∧ d * 2 ^ r = 18446744073709551615 - 1 ∧
      (18446744073709551615 % 2 = 1 → 1 ≤ r) :=
  decomposition_correct 18446744073709551615 (by decide) (by decide)

/-- C16: for every `n` with `37 < n < 2 ^ 64`, if `is_probable_prime n` returns `true` then
`a ^ (n - 1) mod n = 1` for every base `a`. -/
theorem accepted_passes_fermat (n : Nat) (hn : 37 < n) (hn64 : n < U64)
    (hacc : is_probable_prime n = some true) : ∀ a ∈ bases, a ^ (n - 1) % n = 1 := by
  have hnone : trial_division n small_primes = none := by
    cases hv : trial_division n small_primes with
    | none => rfl
    | some v =>
      obtain ⟨p, hp, _, rfl⟩ := trial_division_eq_some small_primes hv
      have hp37 := (small_primes_pos hp).2
      unfold is_probable_prime at hacc
      rw [if_neg (by omega), hv] at hacc
      simp at hacc
      omega
  obtain ⟨d, r, _, hd, hdr⟩ := decompose_eq (by omega : 2 ≤ n) hn64
  obtain ⟨b, hb, hiff⟩ := is_probable_prime_witness_path (by omega) hn64 hnone hd hdr
  rw [hb, Option.some.injEq] at hacc
  intro a ha
  exact fermat_of_strong (by omega) hdr (hiff.mp hacc a ha)

theorem accepted_passes_fermat_witness :
    2 ^ (341550071728321 - 1) % 341550071728321 = 1 ∧
      17 ^ (341550071728321 - 1) % 341550071728321 = 1 :=
  ⟨accepted_passes_fermat 341550071728321 (by decide) (by decide) (by decide!) 2 (by decide),
    accepted_passes_fermat 341550071728321 (by decide) (by decide) (by decide!) 17 (by decide)⟩

/-- C17 (counterexample): `1763 = 41 * 43` reaches the witness loop with `(d, r) = (881, 1)`,
and `check` is called on the base `2` only: that call returns `false` and the loop returns. -/
theorem bases_not_all_checked :
    2 ≤ 1763 ∧ trial_division 1763 small_primes = none ∧
      decompose_loop (1763 - 1) (1763 - 1) 0 = some (881, 1) ∧
      check 1763 881 1 2 = some false ∧
      bases_checked 1763 881 1 bases = [2] ∧ bases_checked 1763 881 1 bases ≠ bases ∧
      is_probable_prime 1763 = some false := by
  decide!

/-- C17 (amended): every `n ≥ 2` divisible by none of the twelve small primes is at least
`41`; for every base `a` neither `a >= n` nor `a mod n == 0` holds, so no base is passed
over: the base loop of `is_probable_prime` returns `true` if and only if `check` returns
`true` on every one of the seven bases, and it returns `false` at the first base on which
`check` returns `false`. -/
theorem no_base_skipped (n : Nat) (hn : 2 ≤ n) (hnd : ∀ p ∈ small_primes, n % p ≠ 0) :
    41 ≤ n ∧ (∀ a ∈ bases, ¬ (a ≥ n) ∧ urem a n = some a ∧ a ≠ 0) ∧
      ∀ d r,
        (bases_loop n d r bases = some true ↔ ∀ a ∈ bases, check n d r a = some true) ∧
        (∀ pre a rest, bases = pre ++ a :: rest →
          (∀ b ∈ pre, check n d r b = some true) → check n d r a = some false →
            bases_loop n d r bases = some false) := by
  have h41 := ge_41_of_trial_division_none hn ((trial_division_eq_none small_primes).mpr hnd)
  have hlt : ∀ a ∈ bases, a < n := fun a ha => by
    have := bases_bounds ha
    omega
  refine ⟨h41, ?_, fun d r => ⟨bases_loop_true_iff bases hlt, ?_⟩⟩
  · intro a ha
    have hb := bases_bounds ha
    refine ⟨by omega, ?_, by omega⟩
    rw [urem_pos _ (by omega), Nat.mod_eq_of_lt (hlt a ha)]
  · intro pre a rest hsplit hpass hfail
    have hmem : ∀ b ∈ pre ++ a :: rest, b < n := by
      rw [← hsplit]
      exact hlt
    rw [hsplit]
    exact bases_loop_first_failure (hmem a (by simp)) hfail rest pre
      (fun b hb => hmem b (by simp [hb])) hpass

theorem no_base_skipped_witness :
    41 ≤ 1763 ∧ (∀ a ∈ bases, ¬ (a ≥ 1763) ∧ urem a 1763 = some a ∧ a ≠ 0) ∧
      ∀ d r,
        (bases_loop 1763 d r bases = some true ↔ ∀ a ∈ bases, check 1763 d r a = some true) ∧
        (∀ pre a rest, bases = pre ++ a :: rest →
          (∀ b ∈ pre, check 1763 d r b = some true) → check 1763 d r a = some false →
            bases_loop 1763 d r bases = some false) :=
  no_base_skipped 1763 (by decide) (by decide)

/-- C18: for every `n < 1681`, `is_probable_prime n` returns, and it returns `true` if and
only if `n` is prime; a composite `n` in that range is rejected by trial division. -/
theorem exact_below_1681 (n : Nat) (hn : n < 1681) :
    (∃ b, is_probable_prime n = some b ∧ (b = true ↔ n.Prime)) ∧
      (2 ≤ n → ¬ n.Prime → trial_division n small_primes = some false) := by
  have h64 : (1681 : Nat) < U64 := by decide
  have hcomp : 2 ≤ n → ¬ n.Prime → trial_division n small_primes = some false := by
    intro h2 hnp
    obtain ⟨p, hp, hdvd, hne⟩ := small_factor_of_composite h2 hn hnp
    rw [trial_division_of_dvd hp hdvd, decide_eq_false hne]
  refine ⟨?_, hcomp⟩
  by_cases hp : n.Prime
  · exact ⟨true, is_probable_prime_of_prime hp (by omega), by simp [hp]⟩
  · refine ⟨false, ?_, by simp [hp]⟩
    by_cases h2 : 2 ≤ n
    · unfold is_probable_prime
      rw [if_neg (by omega), hcomp h2 hp]
    · unfold is_probable_prime
      rw [if_pos (by omega)]

theorem exact_below_1681_witness :
    (∃ b, is_probable_prime 1679 = some b ∧ (b = true ↔ Nat.Prime 1679)) ∧
      (2 ≤ 1679 → ¬ Nat.Prime 1679 → trial_division 1679 small_primes = some false) :=
  exact_below_1681 1679 (by decide)

end MillerRabin
